import Mathlib

/-!
Verification of the result-indexing and resolution protocol of the
`remote-mcp-server-authless` repository (a GitHub repo MCP adapter running on
Cloudflare Workers).

The development shallowly embeds the TypeScript source:

* the non-indexing variant (`src/src/index.ts`, lines 1-407): `ghGet`,
  `safeAtob`, the four category mappers, the branch commit/code scans,
  `handleSearch` and `handleFetch` with their per-kind fetchers;
* the indexing variant (`src/src/index.ts`, lines 408-819): `ghJson`, the
  session `State.index`, the `search` tool that writes index entries and the
  `fetch` tool that redeems them;
* the bare-`atob` variant of `fetchCodeBlob` (`src/unnamed/part_002`).

Upstream HTTP responses are environment parameters: a response record carries
the status, the raw body, and the (typed) result of `JSON.parse` on the body,
exactly the data the source inspects.  JavaScript `undefined`/`null` field
accesses are modelled with `Option`; JS truthiness of a string is `≠ ""`.
JS `String#slice`/`toLowerCase`/`trim` are modelled over `Char` lists
(UTF-16 subtleties are out of scope of every claim).
-/

deriving instance DecidableEq for Except

/-! ## JS string primitives -/

/-- JS `s.slice(0, n)`: the first `n` characters of `s`. -/
def takeChars (n : Nat) (s : String) : String := String.mk (s.toList.take n)

/-- JS `s.includes(pat)`: `pat` occurs as a contiguous substring of `s`. -/
def strIncludes (s pat : String) : Bool :=
  s.toList.tails.any fun t => pat.toList.isPrefixOf t

/-- JS `msg.split("\n")[0]`, the first line of a string (empty for `""`). -/
def firstLine (s : String) : String :=
  String.mk (s.toList.takeWhile fun c => c ≠ Char.ofNat 10)

/-- JS `s.toLowerCase()` (ASCII case mapping suffices for every claim). -/
def jsToLower (s : String) : String := String.mk (s.toList.map Char.toLower)

/-- JS `s.trim()`: strip leading and trailing whitespace. -/
def jsTrim (s : String) : String :=
  String.mk (((s.toList.dropWhile Char.isWhitespace).reverse.dropWhile
    Char.isWhitespace).reverse)

/-- JS template rendering of a possibly-`undefined` string value. -/
def jsStr (o : Option String) : String := o.getD "undefined"

/-- JS nullish coalescing `o ?? d` for string-valued fields. -/
def jsCoalesce (o : Option String) (d : String) : String := o.getD d

/-- JS truthy-or `o || d`: an absent or empty string falls back to `d`. -/
def jsOrElse (o : Option String) (d : String) : String :=
  match o with
  | some s => if s = "" then d else s
  | none => d

/-- JS truthiness of a possibly-absent string: present and non-empty. -/
def jsTruthy (o : Option String) : Bool :=
  match o with
  | some s => s ≠ ""
  | none => false

/-! ## `atob` (WHATWG forgiving-base64 decode) and `safeAtob`

`atob` first strips ASCII whitespace, then strips up to two trailing `=`
when the length is a multiple of four, rejects a remaining length of
`1 mod 4` or any character outside the base64 alphabet, and finally turns
each sextet group into bytes; the result is the string of those byte values.
-/

/-- ASCII whitespace stripped by forgiving-base64. -/
def isB64Ws (c : Char) : Bool :=
  c = ' ' ∨ c = Char.ofNat 9 ∨ c = Char.ofNat 10 ∨ c = Char.ofNat 12 ∨ c = Char.ofNat 13

/-- Value of one base64 alphabet character. -/
def b64Val (c : Char) : Option Nat :=
  if 'A' ≤ c ∧ c ≤ 'Z' then some (c.toNat - 65)
  else if 'a' ≤ c ∧ c ≤ 'z' then some (c.toNat - 97 + 26)
  else if '0' ≤ c ∧ c ≤ '9' then some (c.toNat - 48 + 52)
  else if c = '+' then some 62
  else if c = '/' then some 63
  else none

/-- Recombine base64 sextets into bytes (a trailing group of two or three
sextets yields one or two bytes; leftover bits are dropped). -/
def sextetsToBytes : List Nat → List Nat
  | a :: b :: c :: d :: rest =>
      (a * 4 + b / 16) :: ((b % 16) * 16 + c / 4) :: ((c % 4) * 64 + d) ::
        sextetsToBytes rest
  | [a, b] => [a * 4 + b / 16]
  | [a, b, c] => [a * 4 + b / 16, (b % 16) * 16 + c / 4]
  | _ => []

/-- Strip up to two trailing `=` when the length is a multiple of four. -/
def b64StripPad (l : List Char) : List Char :=
  if l.length % 4 = 0 then
    match l.reverse with
    | '=' :: '=' :: r => r.reverse
    | '=' :: r => r.reverse
    | _ => l
  else l

/-- JS `atob`: `none` models the thrown `InvalidCharacterError`. -/
def atobM (s : String) : Option String :=
  let d0 := s.toList.filter (fun c => ¬ isB64Ws c)
  let d1 := b64StripPad d0
  if d1.length % 4 = 1 then none
  else (d1.mapM b64Val).map fun sextets =>
    String.mk ((sextetsToBytes sextets).map Char.ofNat)

/-- Model of `safeAtob` (`src/src/index.ts:110`): strip newlines, decode, and turn a
decode failure into the empty string instead of an exception. -/
def safeAtob (b64 : String) : String :=
  (atobM (String.mk (b64.toList.filter (fun c => c ≠ Char.ofNat 10)))).getD ""

/-! ## Percent encoders (`encodeURIComponent` / `encodeURI`) -/

/-- UTF-8 bytes of one character. -/
def utf8Bytes (c : Char) : List Nat :=
  let n := c.toNat
  if n < 128 then [n]
  else if n < 2048 then [192 + n / 64, 128 + n % 64]
  else if n < 65536 then [224 + n / 4096, 128 + (n / 64) % 64, 128 + n % 64]
  else [240 + n / 262144, 128 + (n / 4096) % 64, 128 + (n / 64) % 64, 128 + n % 64]

/-- Uppercase hex digit. -/
def hexDigit (n : Nat) : Char :=
  if n < 10 then Char.ofNat (48 + n) else Char.ofNat (55 + n)

/-- Percent escape (`%XX`, uppercase hex) of one byte. -/
def pctEncodeByte (b : Nat) : List Char :=
  ['%', hexDigit (b / 16), hexDigit (b % 16)]

/-- Characters `encodeURIComponent` leaves unescaped: alphanumerics and
`- _ . ! ~ * ' ( )`. -/
def uriComponentKeep (c : Char) : Bool :=
  c.isAlphanum ∨ c ∈ ['-', '_', '.', '!', '~', '*', Char.ofNat 39, '(', ')']

/-- Additional characters `encodeURI` leaves unescaped: `; , / ? : @ & = + $ #`. -/
def uriExtraKeep (c : Char) : Bool :=
  c ∈ [';', ',', '/', '?', ':', '@', '&', '=', '+', '$', '#']

/-- Percent-encode every character not in the keep set. -/
def encodeWith (keep : Char → Bool) (s : String) : String :=
  String.mk (s.toList.flatMap fun c =>
    if keep c then [c] else (utf8Bytes c).flatMap pctEncodeByte)

/-- JS `encodeURIComponent`. -/
def encodeURIComponentM (s : String) : String := encodeWith uriComponentKeep s

/-- JS `encodeURI`. -/
def encodeURIM (s : String) : String :=
  encodeWith (fun c => uriComponentKeep c ∨ uriExtraKeep c) s

/-! ## Upstream HTTP responses and the two API clients

A `GhResp α` is one upstream HTTP response as the source observes it:
status, status text, content type, raw body text, and the result of
`JSON.parse` on the body decoded at the shape `α` the caller reads
(`parsed = none` models a `JSON.parse` throw).  `parsedTruthy` is the JS
truthiness of the parsed value (`JSON.parse("null")` is falsy); `message`
and `errField` are the string values of `data.message` / `data.error` when
the parsed body carries them.  Responses are environment inputs, so the
auxiliary fields are only meaningful (and only read) on the branches the
source reads them. -/

structure GhResp (α : Type) where
  status : Nat
  statusText : String
  ctJson : Bool
  body : String
  parsed : Option α
  parsedTruthy : Bool
  message : Option String
  errField : Option String

/-- Predicate `Response.ok` of the Fetch API: status in the range 200-299. -/
def ghOk {α : Type} (r : GhResp α) : Bool := 200 ≤ r.status ∧ r.status ≤ 299

/-- What `ghGet` can return: the parsed JSON, or (non-JSON content type,
successful status, unparseable body) the trimmed 300-character body head. -/
inductive GhOut (α : Type) where
  | data (a : α)
  | headStr (s : String)
deriving DecidableEq, Repr

/-- Read a field of a `ghGet` result as optional chaining does: a plain
string result has no fields, so every access yields `undefined`. -/
def ghField {α β : Type} (out : GhOut α) (f : α → Option β) : Option β :=
  match out with
  | .data a => f a
  | .headStr _ => none

/-- Model of `ghGet` (`src/src/index.ts:79-108`), the non-indexing variant's client:
JSON-or-text fetch whose failures become `Error`s carrying the status and
either the parsed body's `message`/`error` field or a 300-character head of
the trimmed raw body. -/
def ghGet {α : Type} (r : GhResp α) : Except String (GhOut α) :=
  let head := takeChars 300 (jsTrim r.body)
  if ¬ ghOk r then
    if ¬ r.ctJson then
      .error ("GitHub " ++ toString r.status ++ " " ++ r.statusText ++ ": " ++ head)
    else
      match r.parsed with
      | none =>
          .error ("GitHub " ++ toString r.status ++ " " ++ r.statusText ++ ": " ++ head)
      | some _ =>
          let msg := if r.parsedTruthy then
              jsOrElse r.message (jsOrElse r.errField head)
            else head
          .error ("GitHub " ++ toString r.status ++ " " ++ r.statusText ++ ": " ++ msg)
  else
    if ¬ r.ctJson then
      match r.parsed with
      | some d => .ok (.data d)
      | none => .ok (.headStr head)
    else
      match r.parsed with
      | none =>
          .error ("GitHub " ++ toString r.status ++ " " ++ r.statusText ++ ": " ++ head)
      | some d => .ok (.data d)

/-- Model of `ghJson` (`src/src/index.ts:449-457`), the indexing variant's client: on a
non-success status it throws an `Error` embedding the *entire* raw body after
the URL; on a success status it returns `r.json()` (whose own parse failure
also throws). -/
def ghJson {α : Type} (url : String) (r : GhResp α) : Except String α :=
  if ¬ ghOk r then
    .error ("GitHub API " ++ toString r.status ++ " " ++ r.statusText ++ " for " ++ url
      ++ (if r.body = "" then "" else "\n" ++ r.body))
  else
    match r.parsed with
    | some a => .ok a
    | none => .error "SyntaxError: Unexpected end of JSON input"

/-! ## Data model of the non-indexing variant -/

/-- The module-level request scope (`OWNER`, `REPO`, `LIMIT`) set by the
worker entry per request. -/
structure RepoCtx where
  owner : String
  repo : String
  limit : Nat

/-- Shape `SearchItem` (`src/src/index.ts:17`). -/
structure SearchItem where
  id : String
  title : String
  url : String
deriving DecidableEq, Repr

/-- Shape `Doc` (`src/src/index.ts:18-24`).  The `metadata` map is not modelled:
no verified claim reads it. -/
structure Doc where
  id : String
  title : String
  text : String
  url : String
deriving DecidableEq, Repr

/-- Raw item of the issue / pull-request search endpoints, restricted to the
fields the source reads (`number`, `title`, `html_url`). -/
structure RawIssue where
  number : Option Int
  title : Option String
  html_url : Option String
deriving DecidableEq, Repr

/-- Nested `commit` object of a raw commit item (`message` only). -/
structure RawCommitInner where
  message : Option String
deriving DecidableEq, Repr

/-- Raw item of the commit search / commit list endpoints. -/
structure RawCommit where
  sha : Option String
  commit : Option RawCommitInner
  html_url : Option String
deriving DecidableEq, Repr

/-- Raw item of the code search endpoint. -/
structure RawCode where
  sha : Option String
  path : Option String
  html_url : Option String
deriving DecidableEq, Repr

/-- Raw entry of the recursive git tree endpoint. -/
structure RawTreeEntry where
  type : Option String
  sha : Option String
  path : Option String
deriving DecidableEq, Repr

/-- Body shape of the search endpoints: an optional `items` array whose
elements may be `null`. -/
structure ItemsBody (α : Type) where
  items : Option (List (Option α))
deriving DecidableEq, Repr

/-- Extraction `ri?.items ?? []` on a `ghGet` result. -/
def itemsOf {α : Type} (out : GhOut (ItemsBody α)) : List (Option α) :=
  match out with
  | .data b => b.items.getD []
  | .headStr _ => []

/-- Nested `commit` object of the branch endpoint body. -/
structure BranchCommit where
  sha : Option String
deriving DecidableEq, Repr

/-- Body shape of `/repos/{o}/{r}/branches/{branch}`. -/
structure BranchBody where
  commit : Option BranchCommit
deriving DecidableEq, Repr

/-- Body shape of `/repos/{o}/{r}/git/trees/{sha}?recursive=1`: `tree` is
`some entries` when it is an array (`Array.isArray(tree?.tree)`), else `none`. -/
structure TreeBody where
  tree : Option (List (Option RawTreeEntry))
deriving DecidableEq, Repr

/-- Parsed body of the commit list endpoint: `some commits` when the JSON is
an array (`Array.isArray`), `none` otherwise. -/
def CommitsArr : Type := Option (List (Option RawCommit))

/-- Model of `ghUrl` (`src/src/index.ts:68-76`) without query parameters. -/
def ghUrl (path : String) : String := "https://api.github.com" ++ path

/-! ## Category mappers (`src/src/index.ts:139-177`) -/

/-- Mapper `mapIssueItem`: `null` when the item is `null` or `it.number == null`. -/
def mapIssueItem (it : Option RawIssue) : Option SearchItem :=
  match it with
  | none => none
  | some it =>
    match it.number with
    | none => none
    | some n =>
        some { id := "issue:" ++ toString n,
               title := jsCoalesce it.title ("Issue #" ++ toString n),
               url := jsStr it.html_url }

/-- Mapper `mapPrItem`: `null` when the item is `null` or `it.number == null`. -/
def mapPrItem (it : Option RawIssue) : Option SearchItem :=
  match it with
  | none => none
  | some it =>
    match it.number with
    | none => none
    | some n =>
        some { id := "pr:" ++ toString n,
               title := jsCoalesce it.title ("PR #" ++ toString n),
               url := jsStr it.html_url }

/-- Mapper `mapCommitItem`: `null` when `it?.sha` is falsy; the title is the first
message line with a `Commit <sha7>` fallback; the URL falls back to the
browsable commit URL. -/
def mapCommitItem (ctx : RepoCtx) (it : Option RawCommit) : Option SearchItem :=
  match it with
  | none => none
  | some it =>
    match it.sha with
    | none => none
    | some sha =>
      if sha = "" then none
      else
        let msg := jsCoalesce (it.commit.bind RawCommitInner.message) ""
        let title := if firstLine msg = "" then "Commit " ++ takeChars 7 sha
          else firstLine msg
        some { id := "commit:" ++ sha,
               title := title,
               url := jsOrElse it.html_url
                 ("https://github.com/" ++ ctx.owner ++ "/" ++ ctx.repo
                   ++ "/commit/" ++ sha) }

/-- Mapper `mapCodeItemFromSearch`: `null` when `it?.sha` is falsy; the title is the
path with the blob hash as fallback. -/
def mapCodeItemFromSearch (it : Option RawCode) : Option SearchItem :=
  match it with
  | none => none
  | some it =>
    match it.sha with
    | none => none
    | some sha =>
      if sha = "" then none
      else
        some { id := "code:" ++ sha,
               title := jsCoalesce it.path sha,
               url := jsStr it.html_url }

/-- Mapper `mapCodeItemFromTree`: `null` unless the entry is a blob with truthy
`sha` and `path`; builds a browsable URL at the branch/path pair. -/
def mapCodeItemFromTree (ctx : RepoCtx) (entry : Option RawTreeEntry)
    (branch : String) : Option SearchItem :=
  match entry with
  | none => none
  | some e =>
    if e.type = some "blob" ∧ jsTruthy e.sha ∧ jsTruthy e.path then
      let sha := jsStr e.sha
      let path := jsStr e.path
      some { id := "code:" ++ sha,
             title := path,
             url := "https://github.com/" ++ ctx.owner ++ "/" ++ ctx.repo
               ++ "/blob/" ++ encodeURIComponentM branch ++ "/" ++ encodeURIM path }
    else none

/-! ## Environment of one `search` invocation

Each field is the upstream response the corresponding `ghGet` URL would
receive; requests whose URL depends on data computed during the invocation
(`branch`, the `per_page` parameter, the resolved head sha) are functions of
that data. -/

structure SearchEnv where
  issues : GhResp (ItemsBody RawIssue)
  prs : GhResp (ItemsBody RawIssue)
  commitsSearch : GhResp (ItemsBody RawCommit)
  codeSearch : GhResp (ItemsBody RawCode)
  branchInfo : String → GhResp BranchBody
  commitsList : String → Nat → GhResp CommitsArr
  tree : String → GhResp TreeBody

/-- Coercion `Array.isArray(x) ? x : []` on the commit list response. -/
def jsArrOf (out : GhOut CommitsArr) : List (Option RawCommit) :=
  match out with
  | .data (some arr) => arr
  | .data none => []
  | .headStr _ => []

/-- Extraction `c && c.sha ? String(c.sha) : ""` (an empty sha also yields `""`). -/
def commitShaStr (c : Option RawCommit) : String :=
  ((c.bind RawCommit.sha)).getD ""

/-- Extraction `c.commit && c.commit.message ? String(c.commit.message) : ""`. -/
def commitMsgStr (c : Option RawCommit) : String :=
  ((c.bind RawCommit.commit).bind RawCommitInner.message).getD ""

/-- The `SearchItem` the branch commit scan pushes for a matching commit. -/
def commitScanItem (ctx : RepoCtx) (c : Option RawCommit) : SearchItem :=
  let sha := commitShaStr c
  let msg := commitMsgStr c
  { id := "commit:" ++ sha,
    title := if firstLine msg = "" then "Commit " ++ takeChars 7 sha else firstLine msg,
    url := "https://github.com/" ++ ctx.owner ++ "/" ++ ctx.repo ++ "/commit/" ++ sha }

/-- Scan loop of `searchCommitsOnBranch` (`src/src/index.ts:191-201`):
skip items without a sha, keep those matching the lowercased trimmed query
`q` against the lowercased full message or the raw sha, and break as soon as
`LIMIT` matches are collected. -/
def commitScanLoop (ctx : RepoCtx) (q : String) :
    List (Option RawCommit) → List SearchItem → List SearchItem
  | [], out => out
  | c :: rest, out =>
    if commitShaStr c = "" then commitScanLoop ctx q rest out
    else if q = "" ∨ strIncludes (jsToLower (commitMsgStr c)) q
        ∨ strIncludes (commitShaStr c) q then
      let out2 := out ++ [commitScanItem ctx c]
      if ctx.limit ≤ out2.length then out2 else commitScanLoop ctx q rest out2
    else commitScanLoop ctx q rest out

/-- Model of `searchCommitsOnBranch` (`src/src/index.ts:186-203`).  The source awaits
`ghGet(url)` twice (once inside `Array.isArray`); with a deterministic
environment both calls return the same response, so a single bind is
faithful. -/
def searchCommitsOnBranch (ctx : RepoCtx) (env : SearchEnv)
    (branch query : String) : Except String (List SearchItem) :=
  match ghGet (env.commitsList branch 100) with
  | .error e => .error e
  | .ok out =>
    let commits := jsArrOf out
    let q := jsToLower (jsTrim query)
    .ok (commitScanLoop ctx q commits [])

/-- Model of `resolveBranchHeadSha` (`src/src/index.ts:179-184`). -/
def resolveBranchHeadSha (env : SearchEnv) (branch : String) :
    Except String (Option String) :=
  match ghGet (env.branchInfo branch) with
  | .error e => .error e
  | .ok j =>
    .ok (match j with
    | .data b =>
      match b.commit with
      | some c =>
        match c.sha with
        | some s => if s = "" then none else some s
        | none => none
      | none => none
    | .headStr _ => none)

/-- Scan loop of `searchCodePathsOnBranch` (`src/src/index.ts:213-221`):
skip entries that are not blobs with a truthy path, filter paths by the
lowercased query, push the mapped item when the mapper accepts the entry,
and break once `LIMIT` results are collected. -/
def codeScanLoop (ctx : RepoCtx) (branch q : String) :
    List (Option RawTreeEntry) → List SearchItem → List SearchItem
  | [], res => res
  | e :: rest, res =>
    if ¬ ((e.bind RawTreeEntry.type) = some "blob" ∧ jsTruthy (e.bind RawTreeEntry.path))
    then codeScanLoop ctx branch q rest res
    else
      let path := jsStr (e.bind RawTreeEntry.path)
      if q = "" ∨ strIncludes (jsToLower path) q then
        let res2 := match mapCodeItemFromTree ctx e branch with
          | some m => res ++ [m]
          | none => res
        if ctx.limit ≤ res2.length then res2 else codeScanLoop ctx branch q rest res2
      else codeScanLoop ctx branch q rest res

/-- Model of `searchCodePathsOnBranch` (`src/src/index.ts:205-223`): resolve the
branch head, fetch the recursive tree at it, and scan. -/
def searchCodePathsOnBranch (ctx : RepoCtx) (env : SearchEnv)
    (branch query : String) : Except String (List SearchItem) :=
  match resolveBranchHeadSha env branch with
  | .error e => .error e
  | .ok none => .ok []
  | .ok (some headSha) =>
    match ghGet (env.tree headSha) with
    | .error e => .error e
    | .ok tout =>
      let entries := match tout with
        | .data tb => tb.tree.getD []
        | .headStr _ => []
      let q := jsToLower (jsTrim query)
      .ok (codeScanLoop ctx branch q entries [])

/-! ## `handleSearch` (`src/src/index.ts:227-292`) -/

/-- One `results.push(x)` loop over mapped raw items. -/
def pushMapped {α : Type} (f : Option α → Option SearchItem) :
    List (Option α) → List SearchItem → List SearchItem
  | [], acc => acc
  | it :: rest, acc =>
    match f it with
    | some x => pushMapped f rest (acc ++ [x])
    | none => pushMapped f rest acc

/-- The try-block of `handleSearch`: the four category queries of
`Promise.all` are modelled sequentially (the combinator is deterministic in
the four responses; completion timing cannot influence the value). -/
def searchBody (ctx : RepoCtx) (env : SearchEnv) (query : String)
    (branch? : Option String) : Except String (List SearchItem) :=
  match branch? with
  | some branch =>
    match ghGet env.issues with
    | .error e => .error e
    | .ok ji =>
      match ghGet env.prs with
      | .error e => .error e
      | .ok jp =>
        match searchCommitsOnBranch ctx env branch query with
        | .error e => .error e
        | .ok commitItems =>
          match searchCodePathsOnBranch ctx env branch query with
          | .error e => .error e
          | .ok codeItems =>
            let r1 := pushMapped mapIssueItem (itemsOf ji) []
            let r2 := pushMapped mapPrItem (itemsOf jp) r1
            .ok (r2 ++ commitItems ++ codeItems)
  | none =>
    match ghGet env.issues with
    | .error e => .error e
    | .ok ri =>
      match ghGet env.prs with
      | .error e => .error e
      | .ok rp =>
        match ghGet env.commitsSearch with
        | .error e => .error e
        | .ok rc =>
          match ghGet env.codeSearch with
          | .error e => .error e
          | .ok rcode =>
            let r1 := pushMapped mapIssueItem (itemsOf ri) []
            let r2 := pushMapped mapPrItem (itemsOf rp) r1
            let r3 := pushMapped (mapCommitItem ctx) (itemsOf rc) r2
            let r4 := pushMapped mapCodeItemFromSearch (itemsOf rcode) r3
            .ok r4

/-- Serialized return value of the `search` tool: a `{ results }` payload or
an `{ error }` payload.  An `Except.error` that escaped would instead be an
exception crossing the operation boundary. -/
inductive SearchOutcome where
  | results (rs : List SearchItem)
  | error (e : String)
deriving DecidableEq, Repr

/-- The catch of `handleSearch`: a thrown error becomes an `{ error }`
payload. -/
def resultsOrError (r : Except String (List SearchItem)) : SearchOutcome :=
  match r with
  | .ok rs => .results rs
  | .error e => .error e

/-- Model of `handleSearch` with its surrounding try/catch: every internal throw is
caught and returned as an `{ error }` payload. -/
def handleSearch (ctx : RepoCtx) (env : SearchEnv) (query : String)
    (branch? : Option String) : SearchOutcome :=
  resultsOrError (searchBody ctx env query branch?)

/-! ## `handleFetch` (`src/src/index.ts:294-316`) and the per-kind fetchers -/

/-- Characters of the first segment of `id.split(":")`. -/
def takeUntilColon : List Char → List Char
  | [] => []
  | c :: cs => if c = ':' then [] else c :: takeUntilColon cs

/-- Characters after the first `':'`, when one exists. -/
def restAfterColon : List Char → Option (List Char)
  | [] => none
  | c :: cs => if c = ':' then some cs else restAfterColon cs

/-- Component `kind` of `const [kind, value] = id.split(":")`: the segment before the
first colon (the whole string when there is none). -/
def kindOf (id : String) : String := String.mk (takeUntilColon id.toList)

/-- Component `value` of the same destructuring: the segment between the first and
second colon; JS `undefined` (rendered `"undefined"` in the template-literal
positions that consume it) when the id has no colon. -/
def valueOf (id : String) : String :=
  jsStr ((restAfterColon id.toList).map fun r => String.mk (takeUntilColon r))

/-- Response body of the single-issue / single-PR endpoints (fields read). -/
structure IssueBody where
  title : Option String
  body : Option String
  html_url : Option String
deriving DecidableEq, Repr

/-- Response body of the single-commit endpoint (fields read). -/
structure CommitBody where
  commit : Option RawCommitInner
  html_url : Option String
deriving DecidableEq, Repr

/-- Response body of the git blob endpoint (fields read). -/
structure BlobBody where
  encoding : Option String
  content : Option String
deriving DecidableEq, Repr

/-- Environment of one `fetch` invocation, keyed by the `value` interpolated
into each endpoint URL. -/
structure FetchEnv where
  issue : String → GhResp IssueBody
  pr : String → GhResp IssueBody
  commit : String → GhResp CommitBody
  blob : String → GhResp BlobBody

/-- Model of `fetchIssue` (`src/src/index.ts:318-328`). -/
def fetchIssue (ctx : RepoCtx) (env : FetchEnv) (value : String) :
    Except String Doc :=
  let url := ghUrl ("/repos/" ++ ctx.owner ++ "/" ++ ctx.repo ++ "/issues/" ++ value)
  match ghGet (env.issue value) with
  | .error e => .error e
  | .ok j =>
    .ok { id := "issue:" ++ value,
          title := jsCoalesce (ghField j IssueBody.title) ("Issue #" ++ value),
          text := jsCoalesce (ghField j IssueBody.body) "",
          url := jsCoalesce (ghField j IssueBody.html_url) url }

/-- Model of `fetchPr` (`src/src/index.ts:330-340`). -/
def fetchPr (ctx : RepoCtx) (env : FetchEnv) (value : String) :
    Except String Doc :=
  let url := ghUrl ("/repos/" ++ ctx.owner ++ "/" ++ ctx.repo ++ "/pulls/" ++ value)
  match ghGet (env.pr value) with
  | .error e => .error e
  | .ok j =>
    .ok { id := "pr:" ++ value,
          title := jsCoalesce (ghField j IssueBody.title) ("PR #" ++ value),
          text := jsCoalesce (ghField j IssueBody.body) "",
          url := jsCoalesce (ghField j IssueBody.html_url) url }

/-- Model of `fetchCommit` (`src/src/index.ts:342-354`). -/
def fetchCommit (ctx : RepoCtx) (env : FetchEnv) (value : String) :
    Except String Doc :=
  let url := ghUrl ("/repos/" ++ ctx.owner ++ "/" ++ ctx.repo ++ "/commits/" ++ value)
  match ghGet (env.commit value) with
  | .error e => .error e
  | .ok j =>
    let msg := jsCoalesce (ghField j (fun b => b.commit.bind RawCommitInner.message)) ""
    .ok { id := "commit:" ++ value,
          title := if firstLine msg = "" then "Commit " ++ takeChars 7 value
            else firstLine msg,
          text := msg,
          url := jsCoalesce (ghField j CommitBody.html_url) url }

/-- Model of `fetchCodeBlob` (`src/src/index.ts:356-367`), the `safeAtob` variant:
a base64 payload with truthy content is decoded with `safeAtob`; anything
else yields empty text. -/
def fetchCodeBlob (ctx : RepoCtx) (env : FetchEnv) (value : String) :
    Except String Doc :=
  let url := ghUrl ("/repos/" ++ ctx.owner ++ "/" ++ ctx.repo ++ "/git/blobs/" ++ value)
  match ghGet (env.blob value) with
  | .error e => .error e
  | .ok j =>
    let text := if (ghField j BlobBody.encoding) = some "base64"
        ∧ jsTruthy (ghField j BlobBody.content)
      then safeAtob (jsStr (ghField j BlobBody.content)) else ""
    .ok { id := "code:" ++ value,
          title := "blob " ++ value,
          text := text,
          url := url }

/-- Serialized return value of the `fetch` tool: a `Doc` payload or an
`{ error }` payload. -/
inductive FetchOutcome where
  | doc (d : Doc)
  | error (e : String)
deriving DecidableEq, Repr

/-- The placeholder returned for an unrecognized id form. -/
def unknownDoc (id : String) : Doc :=
  { id := id, title := "Unknown ID", text := "Use: issue, pr, commit, or code", url := "" }

/-- The catch of `handleFetch`: a thrown error becomes an `{ error }`
payload. -/
def docOrError (r : Except String Doc) : FetchOutcome :=
  match r with
  | .ok d => .doc d
  | .error e => .error e

/-- Model of `handleFetch` with its surrounding try/catch: tag dispatch on the segment
before the first colon, the placeholder for anything else, and every internal
throw caught into an `{ error }` payload. -/
def handleFetch (ctx : RepoCtx) (env : FetchEnv) (id : String) : FetchOutcome :=
  let kind := kindOf id
  let value := valueOf id
  docOrError (
    if kind = "issue" then fetchIssue ctx env value
    else if kind = "pr" then fetchPr ctx env value
    else if kind = "commit" then fetchCommit ctx env value
    else if kind = "code" then fetchCodeBlob ctx env value
    else .ok (unknownDoc id))

/-- Model of `fetchCodeBlob` of `src/unnamed/part_002:159-164`, the bare-`atob`
variant: a decode failure is not caught here, so it throws (the surrounding
`handleFetch` catch then converts it into an `{ error }` payload). -/
def fetchCodeBlobV2 (ctx : RepoCtx) (env : FetchEnv) (value : String) :
    Except String Doc :=
  let url := ghUrl ("/repos/" ++ ctx.owner ++ "/" ++ ctx.repo ++ "/git/blobs/" ++ value)
  match ghGet (env.blob value) with
  | .error e => .error e
  | .ok j =>
  if (ghField j BlobBody.encoding) = some "base64"
      ∧ jsTruthy (ghField j BlobBody.content) then
    match atobM (String.mk ((jsStr (ghField j BlobBody.content)).toList.filter
        (fun c => c ≠ Char.ofNat 10))) with
    | some t =>
        .ok { id := "code:" ++ value, title := "blob " ++ value, text := t, url := url }
    | none =>
        .error "InvalidCharacterError: The string to be decoded is not correctly encoded."
  else
    .ok { id := "code:" ++ value, title := "blob " ++ value, text := "", url := url }

/-- Model of `handleFetch` of `src/unnamed/part_002:120-135`: identical dispatch and
catch, but the code tag resolves through the bare-`atob` blob fetcher. -/
def handleFetchV2 (ctx : RepoCtx) (env : FetchEnv) (id : String) : FetchOutcome :=
  let kind := kindOf id
  let value := valueOf id
  docOrError (
    if kind = "issue" then fetchIssue ctx env value
    else if kind = "pr" then fetchPr ctx env value
    else if kind = "commit" then fetchCommit ctx env value
    else if kind = "code" then fetchCodeBlobV2 ctx env value
    else .ok (unknownDoc id))

/-! ## Indexing variant (`src/src/index.ts:408-819`)

Session state is `State = { index: Record<id, {owner, repo, path, sha?,
html_url}> }`.  The record is modelled as an association list where a write
prepends its pair, so a later write to the same key shadows the earlier one
(JS assignment overwrites).  The `search` tool indexes every code item of the
upstream response; the `fetch` tool redeems known ids against the index and
treats unknown tokens as repository paths at `HEAD`.  Neither tool has a
try/catch, so a thrown `ghJson`/`ghText` error is the value of the whole
invocation (`Except.error`), not a returned payload. -/

/-- One index entry (`State.index` value shape). -/
structure IdxEntry where
  owner : String
  repo : String
  path : String
  sha : Option String
  html_url : String
deriving DecidableEq, Repr

/-- The per-session state. -/
structure IState where
  index : List (String × IdxEntry)
deriving DecidableEq, Repr

/-- Initial state `initialState: State = { index: {} }` (`src/src/index.ts:473`). -/
def initialIState : IState := ⟨[]⟩

/-- The per-repo props the router injects (`ctx.props`). -/
structure IdxProps where
  owner : String
  repo : String
deriving DecidableEq, Repr

/-- Assignment `this.state.index[id] = entry` (insert-or-overwrite). -/
def idxPut (st : IState) (k : String) (e : IdxEntry) : IState :=
  ⟨(k, e) :: st.index⟩

/-- Lookup `this.state.index[token]`. -/
def idxLookup (st : IState) (k : String) : Option IdxEntry :=
  (st.index.find? fun p => p.1 = k).map Prod.snd

/-- The key set of the index. -/
def idxKeys (st : IState) : List String := st.index.map Prod.fst

/-- Raw item of the indexing variant's `/search/code` response.  The
upstream wire contract (spec §6) guarantees a content hash, path and
canonical URL per item, so these three are plain strings. -/
structure RawCodeIdx where
  sha : String
  path : String
  html_url : String
  full_name : Option String
  snippet : Option String
deriving DecidableEq, Repr

/-- Body shape of the indexing variant's code search response. -/
structure IdxItemsBody where
  items : Option (List RawCodeIdx)
deriving DecidableEq, Repr

/-- One result record returned by the indexing `search` tool. -/
structure IdxResult where
  id : String
  title : String
  url : String
  path : String
  snippet : Option String
deriving DecidableEq, Repr

/-- The index entry the `search` tool writes for one code item
(`src/src/index.ts:487`). -/
def idxEntryOf (props : IdxProps) (it : RawCodeIdx) : IdxEntry :=
  { owner := props.owner, repo := props.repo, path := it.path,
    sha := some it.sha, html_url := it.html_url }

/-- The result record the `search` tool returns for one code item
(`src/src/index.ts:488-494`). -/
def mkIdxResult (props : IdxProps) (it : RawCodeIdx) : IdxResult :=
  { id := it.sha,
    title := jsCoalesce it.full_name (props.owner ++ "/" ++ props.repo) ++ "/" ++ it.path,
    url := it.html_url,
    path := it.path,
    snippet := it.snippet }

/-- The `(data.items ?? []).map(...)` loop: write the index entry for each
item while accumulating the result records in order. -/
def idxSearchGo (props : IdxProps) :
    List RawCodeIdx → IState → List IdxResult → IState × List IdxResult
  | [], st, acc => (st, acc)
  | it :: rest, st, acc =>
      idxSearchGo props rest (idxPut st it.sha (idxEntryOf props it))
        (acc ++ [mkIdxResult props it])

/-- URL of the indexing variant's code search request
(`src/src/index.ts:482-483`). -/
def codeSearchUrl (props : IdxProps) (query : String) : String :=
  "https://api.github.com/search/code?q=" ++
    encodeURIComponentM (query ++ " repo:" ++ props.owner ++ "/" ++ props.repo ++ " in:file")

/-- The indexing `search` tool (`src/src/index.ts:477-498`).  There is no
try/catch: a `ghJson` throw is the result of the whole invocation. -/
def idxSearchTool (props : IdxProps) (query : String)
    (resp : GhResp IdxItemsBody) (st : IState) :
    Except String (IState × List IdxResult) :=
  match ghJson (codeSearchUrl props query) resp with
  | .error e => .error e
  | .ok data =>
    let items := data.items.getD []
    .ok (idxSearchGo props items st [])

/-- Environment of one indexing `fetch` invocation: the `ghText` raw
responses for blob-by-sha and contents-by-path requests (`Except.error`
models the uncaught throw on a non-success status). -/
structure IdxFetchEnv where
  blobRaw : String → Except String String
  contentsRaw : String → Except String String

/-- One `{ path, source_url, content }` output record. -/
structure FileOut where
  path : String
  source_url : String
  content : String
deriving DecidableEq, Repr

/-- The `for (const token of ids)` loop of the indexing `fetch` tool
(`src/src/index.ts:507-518`): a known id with a truthy sha is fetched as a
git blob and reported under its stored path and canonical URL; any other
token is treated as a repo-relative path at `HEAD`. -/
def idxFetchGo (props : IdxProps) (env : IdxFetchEnv) (st : IState) :
    List String → List FileOut → Except String (List FileOut)
  | [], out => .ok out
  | token :: rest, out =>
    match idxLookup st token with
    | some meta =>
      if jsTruthy meta.sha then
        match env.blobRaw (jsStr meta.sha) with
        | .ok content =>
            idxFetchGo props env st rest
              (out ++ [{ path := meta.path, source_url := meta.html_url,
                         content := content }])
        | .error e => .error e
      else
        match env.contentsRaw token with
        | .ok content =>
            idxFetchGo props env st rest
              (out ++ [{ path := token,
                         source_url := "https://github.com/" ++ props.owner ++ "/"
                           ++ props.repo ++ "/blob/HEAD/" ++ token,
                         content := content }])
        | .error e => .error e
    | none =>
      match env.contentsRaw token with
      | .ok content =>
          idxFetchGo props env st rest
            (out ++ [{ path := token,
                       source_url := "https://github.com/" ++ props.owner ++ "/"
                         ++ props.repo ++ "/blob/HEAD/" ++ token,
                       content := content }])
      | .error e => .error e

/-- The indexing `fetch` tool (`src/src/index.ts:501-521`): reads the index,
never writes it, and has no try/catch. -/
def idxFetchTool (props : IdxProps) (env : IdxFetchEnv) (st : IState)
    (ids : List String) : Except String (List FileOut) :=
  idxFetchGo props env st ids []

/-- One tool invocation of an indexing-variant session. -/
inductive SessionOp where
  | searchOp (query : String) (resp : GhResp IdxItemsBody)
  | fetchOp (env : IdxFetchEnv) (ids : List String)

/-- State transition of one invocation: `search` commits its index writes
(a search that throws never ran its mapping loop, leaving the state
untouched); `fetch` only reads. -/
def stepState (props : IdxProps) (st : IState) : SessionOp → IState
  | .searchOp query resp =>
    match idxSearchTool props query resp st with
    | .ok (st2, _) => st2
    | .error _ => st
  | .fetchOp _ _ => st

/-! ## Spec-side category lists (for the aggregation-order claim)

These definitions follow the spec's description of the output — four
independent per-category lists, concatenated in the fixed order issues,
pull requests, commits, code — to be compared against `handleSearch`. -/

/-- Issue results of one invocation, per the spec: the issue items mapped in
upstream order. -/
def specIssueList (env : SearchEnv) : List SearchItem :=
  match ghGet env.issues with
  | .ok out => (itemsOf out).filterMap mapIssueItem
  | .error _ => []

/-- Pull-request results of one invocation, per the spec. -/
def specPrList (env : SearchEnv) : List SearchItem :=
  match ghGet env.prs with
  | .ok out => (itemsOf out).filterMap mapPrItem
  | .error _ => []

/-- Commit results of one invocation, per the spec: the commit-search items
in default mode, the branch commit scan in explicit-branch mode. -/
def specCommitList (ctx : RepoCtx) (env : SearchEnv) (query : String) :
    Option String → List SearchItem
  | none =>
    match ghGet env.commitsSearch with
    | .ok out => (itemsOf out).filterMap (mapCommitItem ctx)
    | .error _ => []
  | some branch =>
    match searchCommitsOnBranch ctx env branch query with
    | .ok l => l
    | .error _ => []

/-- Code results of one invocation, per the spec: the code-search items in
default mode, the branch code-path scan in explicit-branch mode. -/
def specCodeList (ctx : RepoCtx) (env : SearchEnv) (query : String) :
    Option String → List SearchItem
  | none =>
    match ghGet env.codeSearch with
    | .ok out => (itemsOf out).filterMap mapCodeItemFromSearch
    | .error _ => []
  | some branch =>
    match searchCodePathsOnBranch ctx env branch query with
    | .ok l => l
    | .error _ => []

/-! ## Concrete inputs used by the witnesses and counterexamples -/

/-- A plain successful JSON response carrying `a`. -/
def respOf {α : Type} (a : α) : GhResp α :=
  { status := 200, statusText := "OK", ctJson := true, body := "ok",
    parsed := some a, parsedTruthy := true, message := none, errField := none }

/-- A failing response (403, non-JSON body). -/
def respFail (α : Type) (body : String) : GhResp α :=
  { status := 403, statusText := "Forbidden", ctJson := false, body := body,
    parsed := none, parsedTruthy := false, message := none, errField := none }

/-- Example request scope: repository `o/r`, default limit 5. -/
def ctx0 : RepoCtx := { owner := "o", repo := "r", limit := 5 }

/-- Example search environment: one item per category, plus branch data. -/
def env3 : SearchEnv :=
  { issues := respOf ⟨some [some { number := some 1, title := some "Bug", html_url := some "u1" }]⟩,
    prs := respOf ⟨some [some { number := some 2, title := some "Fix", html_url := some "u2" }]⟩,
    commitsSearch := respOf
      ⟨some [some { sha := some "abc1234", commit := some ⟨some "msg one"⟩, html_url := some "u3" }]⟩,
    codeSearch := respOf
      ⟨some [some { sha := some "sha9", path := some "src/a.ts", html_url := some "u4" }]⟩,
    branchInfo := fun _ => respOf ⟨some ⟨some "h1"⟩⟩,
    commitsList := fun _ _ => respOf (some [
      some { sha := some "aaaa", commit := some ⟨some "alpha\nneedle"⟩, html_url := none },
      some { sha := some "bbbb", commit := some ⟨some "beta"⟩, html_url := none }]),
    tree := fun _ => respOf ⟨some [
      some { type := some "blob", sha := some "t1", path := some "src/x.ts" },
      some { type := some "tree", sha := some "t2", path := some "src" },
      some { type := some "blob", sha := some "t3", path := some "README.md" }]⟩ }

/-- Example fetch environment with minimal bodies. -/
def env0 : FetchEnv :=
  { issue := fun _ => respOf { title := none, body := none, html_url := none },
    pr := fun _ => respOf { title := none, body := none, html_url := none },
    commit := fun _ => respOf { commit := none, html_url := none },
    blob := fun _ => respOf { encoding := none, content := none } }

/-- Fetch environment whose blob payload claims base64 but cannot decode. -/
def envBadB64 : FetchEnv :=
  { issue := fun _ => respOf { title := none, body := none, html_url := none },
    pr := fun _ => respOf { title := none, body := none, html_url := none },
    commit := fun _ => respOf { commit := none, html_url := none },
    blob := fun _ => respOf { encoding := some "base64", content := some "%" } }

/-- Example props of an indexing-variant session. -/
def props0 : IdxProps := { owner := "o", repo := "r" }

/-- The parsed commit array of a commit list request at one `per_page`
value (empty for a non-array body or a failed request). -/
def commitWindowAt (env : SearchEnv) (branch : String) (perPage : Nat) :
    List (Option RawCommit) :=
  match ghGet (env.commitsList branch perPage) with
  | .ok out => jsArrOf out
  | .error _ => []

/-- The fetched window of one branch commit scan: the source requests
`per_page=100`. -/
def commitWindow (env : SearchEnv) (branch : String) : List (Option RawCommit) :=
  commitWindowAt env branch 100

/-- The tree entries scanned at a resolved head commit. -/
def treeEntriesAt (env : SearchEnv) (headSha : String) : List (Option RawTreeEntry) :=
  match ghGet (env.tree headSha) with
  | .ok tout =>
    match tout with
    | .data tb => tb.tree.getD []
    | .headStr _ => []
  | .error _ => []

/-- Search environment whose issue query fails upstream. -/
def envFailS : SearchEnv :=
  { env3 with issues := respFail (ItemsBody RawIssue) "oops" }

/-- Indexing search response with one code item. -/
def respIdxW : GhResp IdxItemsBody :=
  respOf ⟨some [{ sha := "s1", path := "p1", html_url := "u1",
                  full_name := none, snippet := none }]⟩

/-- Index state and result list the witness search produces. -/
def stW : IState :=
  ⟨[("s1", { owner := "o", repo := "r", path := "p1", sha := some "s1", html_url := "u1" })]⟩

/-- The result record of the witness search. -/
def resW0 : IdxResult :=
  { id := "s1", title := "o/r/p1", url := "u1", path := "p1", snippet := none }

/-- Fetch environment of the indexing witness. -/
def envIdxW : IdxFetchEnv :=
  { blobRaw := fun _ => .ok "file body", contentsRaw := fun _ => .ok "file body" }

/-- A pre-populated index state (for the lifecycle witness). -/
def stK : IState :=
  ⟨[("a", { owner := "o", repo := "r", path := "p", sha := some "a", html_url := "u" })]⟩

/-- A 301-character response body. -/
def longBody : String := String.mk (List.replicate 301 'a')

/-! ## Auxiliary lemmas -/

/-- The sequential push loop over one category equals that category's
filter-map, appended to whatever was pushed before. -/
theorem pushMapped_eq {α : Type} (f : Option α → Option SearchItem) :
    ∀ (items : List (Option α)) (acc : List SearchItem),
    pushMapped f items acc = acc ++ items.filterMap f := by
  intro items
  induction items with
  | nil => intro acc; simp [pushMapped]
  | cons it rest ih =>
    intro acc
    cases h : f it with
    | some x => simp [pushMapped, h, ih]
    | none => simp [pushMapped, h, ih]

/-- A character list without a colon is its own first segment. -/
theorem takeUntilColon_eq_self : ∀ l : List Char, ':' ∉ l → takeUntilColon l = l := by
  intro l
  induction l with
  | nil => intro _; rfl
  | cons c cs ih =>
    intro h
    have hc : c ≠ ':' := fun he => h (he ▸ List.mem_cons_self c cs)
    have hcs : ':' ∉ cs := fun hm => h (List.mem_cons_of_mem c hm)
    simp [takeUntilColon, hc, ih hcs]

/-- An id without a colon is its own tag. -/
theorem kindOf_no_colon (id : String) (h : ':' ∉ id.toList) : kindOf id = id := by
  unfold kindOf
  rw [takeUntilColon_eq_self _ h]
  rfl

/-- The 300-character body excerpt is at most 300 characters long. -/
theorem takeChars_length_le (n : Nat) (s : String) : (takeChars n s).length ≤ n := by
  show (s.toList.take n).length ≤ n
  rw [List.length_take]
  exact min_le_left _ _

/-- Every item the commit scan loop returns was already pushed or comes from
a fetched commit with a truthy sha that passes the full-message-or-sha
filter. -/
theorem commitScanLoop_mem (ctx : RepoCtx) (q : String) :
    ∀ (es : List (Option RawCommit)) (out : List SearchItem) (item : SearchItem),
    item ∈ commitScanLoop ctx q es out →
    item ∈ out ∨ ∃ c ∈ es, commitShaStr c ≠ "" ∧
      (q = "" ∨ strIncludes (jsToLower (commitMsgStr c)) q = true
        ∨ strIncludes (commitShaStr c) q = true) ∧
      item = commitScanItem ctx c := by
  intro es
  induction es with
  | nil =>
    intro out item h
    exact Or.inl h
  | cons c rest ih =>
    intro out item h
    by_cases h1 : commitShaStr c = ""
    · rw [commitScanLoop, if_pos h1] at h
      rcases ih out item h with h' | ⟨c', hc', hp⟩
      · exact Or.inl h'
      · exact Or.inr ⟨c', List.mem_cons_of_mem c hc', hp⟩
    · by_cases h2 : q = "" ∨ strIncludes (jsToLower (commitMsgStr c)) q = true
          ∨ strIncludes (commitShaStr c) q = true
      · rw [commitScanLoop, if_neg h1, if_pos h2] at h
        by_cases h3 : ctx.limit ≤ (out ++ [commitScanItem ctx c]).length
        · rw [if_pos h3] at h
          rcases List.mem_append.mp h with h' | h'
          · exact Or.inl h'
          · exact Or.inr ⟨c, List.mem_cons_self c rest,
              h1, h2, (List.mem_singleton.mp h')⟩
        · rw [if_neg h3] at h
          rcases ih _ item h with h' | ⟨c', hc', hp⟩
          · rcases List.mem_append.mp h' with h'' | h''
            · exact Or.inl h''
            · exact Or.inr ⟨c, List.mem_cons_self c rest,
                h1, h2, (List.mem_singleton.mp h'')⟩
          · exact Or.inr ⟨c', List.mem_cons_of_mem c hc', hp⟩
      · rw [commitScanLoop, if_neg h1, if_neg h2] at h
        rcases ih out item h with h' | ⟨c', hc', hp⟩
        · exact Or.inl h'
        · exact Or.inr ⟨c', List.mem_cons_of_mem c hc', hp⟩

/-- The commit scan loop never collects more than `LIMIT` items. -/
theorem commitScanLoop_len (ctx : RepoCtx) (q : String) :
    ∀ (es : List (Option RawCommit)) (out : List SearchItem),
    out.length < ctx.limit →
    (commitScanLoop ctx q es out).length ≤ ctx.limit := by
  intro es
  induction es with
  | nil =>
    intro out h
    exact Nat.le_of_lt h
  | cons c rest ih =>
    intro out h
    by_cases h1 : commitShaStr c = ""
    · rw [commitScanLoop, if_pos h1]; exact ih out h
    · by_cases h2 : q = "" ∨ strIncludes (jsToLower (commitMsgStr c)) q = true
          ∨ strIncludes (commitShaStr c) q = true
      · rw [commitScanLoop, if_neg h1, if_pos h2]
        by_cases h3 : ctx.limit ≤ (out ++ [commitScanItem ctx c]).length
        · rw [if_pos h3]
          have : (out ++ [commitScanItem ctx c]).length = out.length + 1 := by simp
          omega
        · rw [if_neg h3]
          exact ih _ (Nat.lt_of_not_le h3)
      · rw [commitScanLoop, if_neg h1, if_neg h2]; exact ih out h

/-- With an empty query and a window of commits that all carry a sha, the
commit scan is exactly the first `LIMIT` commits, mapped and unfiltered. -/
theorem commitScanLoop_empty_q (ctx : RepoCtx) :
    ∀ (es : List (Option RawCommit)) (out : List SearchItem),
    (∀ c ∈ es, commitShaStr c ≠ "") →
    out.length < ctx.limit →
    commitScanLoop ctx "" es out = (out ++ es.map (commitScanItem ctx)).take ctx.limit := by
  intro es
  induction es with
  | nil =>
    intro out _ h
    rw [commitScanLoop]
    simp [List.take_of_length_le (Nat.le_of_lt h)]
  | cons c rest ih =>
    intro out hsha h
    have h1 : commitShaStr c ≠ "" := hsha c (List.mem_cons_self c rest)
    have h2 : ("" : String) = "" ∨ strIncludes (jsToLower (commitMsgStr c)) "" = true
        ∨ strIncludes (commitShaStr c) "" = true := Or.inl rfl
    rw [commitScanLoop, if_neg h1, if_pos h2]
    by_cases h3 : ctx.limit ≤ (out ++ [commitScanItem ctx c]).length
    · rw [if_pos h3]
      have hlen : (out ++ [commitScanItem ctx c]).length = ctx.limit := by
        have : (out ++ [commitScanItem ctx c]).length = out.length + 1 := by simp
        omega
      calc out ++ [commitScanItem ctx c]
          = ((out ++ [commitScanItem ctx c])
              ++ rest.map (commitScanItem ctx)).take ctx.limit := by
            rw [List.take_left' hlen]
        _ = (out ++ (c :: rest).map (commitScanItem ctx)).take ctx.limit := by
            simp
    · rw [if_neg h3]
      have hlt : (out ++ [commitScanItem ctx c]).length < ctx.limit :=
        Nat.lt_of_not_le h3
      rw [ih _ (fun c' hc' => hsha c' (List.mem_cons_of_mem c hc')) hlt]
      simp

/-- An entry that fails the scan's blob-and-path precheck is also rejected
by `mapCodeItemFromTree`. -/
theorem mapTree_none_of_precheck (ctx : RepoCtx) (branch : String)
    (e : Option RawTreeEntry)
    (h : ¬ ((e.bind RawTreeEntry.type) = some "blob"
        ∧ jsTruthy (e.bind RawTreeEntry.path) = true)) :
    mapCodeItemFromTree ctx e branch = none := by
  cases e with
  | none => rfl
  | some ee =>
    rw [mapCodeItemFromTree, if_neg]
    intro ⟨ht, hs, hp⟩
    exact h ⟨ht, hp⟩

/-- Every item the code scan loop returns was already pushed or arises by
mapping a blob entry whose path passes the query filter. -/
theorem codeScanLoop_mem (ctx : RepoCtx) (branch q : String) :
    ∀ (es : List (Option RawTreeEntry)) (res : List SearchItem) (item : SearchItem),
    item ∈ codeScanLoop ctx branch q es res →
    item ∈ res ∨ ∃ e ∈ es, (e.bind RawTreeEntry.type) = some "blob"
      ∧ jsTruthy (e.bind RawTreeEntry.path) = true
      ∧ (q = "" ∨ strIncludes (jsToLower (jsStr (e.bind RawTreeEntry.path))) q = true)
      ∧ mapCodeItemFromTree ctx e branch = some item := by
  intro es
  induction es with
  | nil =>
    intro res item h
    exact Or.inl h
  | cons e rest ih =>
    intro res item h
    by_cases h1 : (e.bind RawTreeEntry.type) = some "blob"
        ∧ jsTruthy (e.bind RawTreeEntry.path) = true
    · by_cases h2 : q = "" ∨ strIncludes (jsToLower (jsStr (e.bind RawTreeEntry.path))) q = true
      · rw [codeScanLoop, if_neg (not_not_intro h1), if_pos h2] at h
        cases hm : mapCodeItemFromTree ctx e branch with
        | some m =>
          rw [hm] at h
          by_cases h3 : ctx.limit ≤ (res ++ [m]).length
          · rw [if_pos h3] at h
            rcases List.mem_append.mp h with h' | h'
            · exact Or.inl h'
            · exact Or.inr ⟨e, List.mem_cons_self e rest, h1.1, h1.2, h2,
                by rw [hm, List.mem_singleton.mp h']⟩
          · rw [if_neg h3] at h
            rcases ih _ item h with h' | ⟨e', he', hp⟩
            · rcases List.mem_append.mp h' with h'' | h''
              · exact Or.inl h''
              · exact Or.inr ⟨e, List.mem_cons_self e rest, h1.1, h1.2, h2,
                  by rw [hm, List.mem_singleton.mp h'']⟩
            · exact Or.inr ⟨e', List.mem_cons_of_mem e he', hp⟩
        | none =>
          rw [hm] at h
          by_cases h3 : ctx.limit ≤ res.length
          · rw [if_pos h3] at h
            exact Or.inl h
          · rw [if_neg h3] at h
            rcases ih res item h with h' | ⟨e', he', hp⟩
            · exact Or.inl h'
            · exact Or.inr ⟨e', List.mem_cons_of_mem e he', hp⟩
      · rw [codeScanLoop, if_neg (not_not_intro h1), if_neg h2] at h
        rcases ih res item h with h' | ⟨e', he', hp⟩
        · exact Or.inl h'
        · exact Or.inr ⟨e', List.mem_cons_of_mem e he', hp⟩
    · rw [codeScanLoop, if_pos h1] at h
      rcases ih res item h with h' | ⟨e', he', hp⟩
      · exact Or.inl h'
      · exact Or.inr ⟨e', List.mem_cons_of_mem e he', hp⟩

/-- The code scan loop never collects more than `LIMIT` items. -/
theorem codeScanLoop_len (ctx : RepoCtx) (branch q : String) :
    ∀ (es : List (Option RawTreeEntry)) (res : List SearchItem),
    res.length < ctx.limit →
    (codeScanLoop ctx branch q es res).length ≤ ctx.limit := by
  intro es
  induction es with
  | nil =>
    intro res h
    exact Nat.le_of_lt h
  | cons e rest ih =>
    intro res h
    by_cases h1 : (e.bind RawTreeEntry.type) = some "blob"
        ∧ jsTruthy (e.bind RawTreeEntry.path) = true
    · by_cases h2 : q = "" ∨ strIncludes (jsToLower (jsStr (e.bind RawTreeEntry.path))) q = true
      · rw [codeScanLoop, if_neg (not_not_intro h1), if_pos h2]
        cases hm : mapCodeItemFromTree ctx e branch with
        | some m =>
          by_cases h3 : ctx.limit ≤ (res ++ [m]).length
          · rw [if_pos h3]
            show (res ++ [m]).length ≤ ctx.limit
            have : (res ++ [m]).length = res.length + 1 := by simp
            omega
          · rw [if_neg h3]
            exact ih _ (Nat.lt_of_not_le h3)
        | none =>
          by_cases h3 : ctx.limit ≤ res.length
          · rw [if_pos h3]
            show res.length ≤ ctx.limit
            omega
          · rw [if_neg h3]; exact ih res h
      · rw [codeScanLoop, if_neg (not_not_intro h1), if_neg h2]
        exact ih res h
    · rw [codeScanLoop, if_pos h1]
      exact ih res h

/-- With an empty query the code scan is exactly the first `LIMIT` mapped
blob entries. -/
theorem codeScanLoop_empty_q (ctx : RepoCtx) (branch : String) :
    ∀ (es : List (Option RawTreeEntry)) (res : List SearchItem),
    res.length < ctx.limit →
    codeScanLoop ctx branch "" es res =
      (res ++ es.filterMap fun e => mapCodeItemFromTree ctx e branch).take ctx.limit := by
  intro es
  induction es with
  | nil =>
    intro res h
    rw [codeScanLoop]
    simp [List.take_of_length_le (Nat.le_of_lt h)]
  | cons e rest ih =>
    intro res h
    by_cases h1 : (e.bind RawTreeEntry.type) = some "blob"
        ∧ jsTruthy (e.bind RawTreeEntry.path) = true
    · have h2 : ("" : String) = ""
          ∨ strIncludes (jsToLower (jsStr (e.bind RawTreeEntry.path))) "" = true := Or.inl rfl
      rw [codeScanLoop, if_neg (not_not_intro h1), if_pos h2]
      cases hm : mapCodeItemFromTree ctx e branch with
      | some m =>
        by_cases h3 : ctx.limit ≤ (res ++ [m]).length
        · rw [if_pos h3]
          have hlen : (res ++ [m]).length = ctx.limit := by
            have : (res ++ [m]).length = res.length + 1 := by simp
            omega
          calc res ++ [m]
              = ((res ++ [m]) ++ rest.filterMap
                  (fun e => mapCodeItemFromTree ctx e branch)).take ctx.limit := by
                rw [List.take_left' hlen]
            _ = (res ++ (e :: rest).filterMap
                  (fun e => mapCodeItemFromTree ctx e branch)).take ctx.limit := by
                simp [List.filterMap_cons, hm]
        · rw [if_neg h3, ih _ (Nat.lt_of_not_le h3)]
          simp [List.filterMap_cons, hm]
      | none =>
        have h3 : ¬ ctx.limit ≤ res.length := Nat.not_le_of_lt h
        rw [if_neg h3, ih res h]
        simp [List.filterMap_cons, hm]
    · rw [codeScanLoop, if_pos h1, ih res h]
      simp [List.filterMap_cons, mapTree_none_of_precheck ctx branch e h1]

/-- Closed form of the indexing search loop: it prepends the per-item writes
(most recent first) onto the previous index and returns the items mapped in
order. -/
theorem idxSearchGo_eq (props : IdxProps) :
    ∀ (items : List RawCodeIdx) (st : IState) (acc : List IdxResult),
    idxSearchGo props items st acc =
      (⟨(items.map fun it => (it.sha, idxEntryOf props it)).reverse ++ st.index⟩,
       acc ++ items.map (mkIdxResult props)) := by
  intro items
  induction items with
  | nil =>
    intro st acc
    simp [idxSearchGo]
  | cons it rest ih =>
    intro st acc
    rw [idxSearchGo, ih]
    simp [idxPut]

/-- In an association list with distinct keys, `find?` retrieves exactly the
pair of any present key. -/
theorem find?_assoc_nodup {β : Type} :
    ∀ (l : List (String × β)) (k : String) (e : β),
    (l.map Prod.fst).Nodup → (k, e) ∈ l →
    (l.find? fun p => p.1 = k) = some (k, e) := by
  intro l
  induction l with
  | nil => intro k e _ h; exact absurd h (List.not_mem_nil _)
  | cons p rest ih =>
    intro k e hnd hmem
    rcases List.mem_cons.mp hmem with h | h
    · rw [← h]
      apply List.find?_cons_of_pos
      simp
    · have hk : k ∈ rest.map Prod.fst := List.mem_map.mpr ⟨(k, e), h, rfl⟩
      have hne : p.1 ≠ k := by
        intro heq
        exact (List.nodup_cons.mp hnd).1 (heq ▸ hk)
      rw [List.find?_cons_of_neg]
      · exact ih k e (List.nodup_cons.mp hnd).2 h
      · simp [hne]

/-- C3: in both modes, a successful search returns exactly the issue
results, then the pull-request results, then the commit results, then the
code results, each category in upstream (or scan) order; the returned list
is a function of the four per-category responses alone, so the completion
order of the four concurrent queries cannot affect it. -/
theorem search_output_category_order :
    ∀ (ctx : RepoCtx) (env : SearchEnv) (query : String) (b : Option String)
      (rs : List SearchItem),
    handleSearch ctx env query b = SearchOutcome.results rs →
    rs = specIssueList env ++ specPrList env
      ++ specCommitList ctx env query b ++ specCodeList ctx env query b := by
  intro ctx env query b rs h
  unfold handleSearch at h
  cases b with
  | none =>
    simp only [searchBody] at h
    cases hri : ghGet env.issues with
    | error e => rw [hri] at h; simp [resultsOrError] at h
    | ok ri =>
      rw [hri] at h
      cases hrp : ghGet env.prs with
      | error e => rw [hrp] at h; simp [resultsOrError] at h
      | ok rp =>
        rw [hrp] at h
        cases hrc : ghGet env.commitsSearch with
        | error e => rw [hrc] at h; simp [resultsOrError] at h
        | ok rc =>
          rw [hrc] at h
          cases hrcode : ghGet env.codeSearch with
          | error e => rw [hrcode] at h; simp [resultsOrError] at h
          | ok rcode =>
            rw [hrcode] at h
            simp only [resultsOrError, SearchOutcome.results.injEq] at h
            rw [← h]
            rw [specIssueList, hri, specPrList, hrp,
              specCommitList, hrc, specCodeList, hrcode]
            simp [pushMapped_eq]
  | some branch =>
    simp only [searchBody] at h
    cases hri : ghGet env.issues with
    | error e => rw [hri] at h; simp [resultsOrError] at h
    | ok ri =>
      rw [hri] at h
      cases hrp : ghGet env.prs with
      | error e => rw [hrp] at h; simp [resultsOrError] at h
      | ok rp =>
        rw [hrp] at h
        cases hc : searchCommitsOnBranch ctx env branch query with
        | error e => rw [hc] at h; simp [resultsOrError] at h
        | ok commitItems =>
          rw [hc] at h
          cases hcode : searchCodePathsOnBranch ctx env branch query with
          | error e => rw [hcode] at h; simp [resultsOrError] at h
          | ok codeItems =>
            rw [hcode] at h
            simp only [resultsOrError, SearchOutcome.results.injEq] at h
            rw [← h]
            rw [specIssueList, hri, specPrList, hrp,
              specCommitList, hc, specCodeList, hcode]
            simp [pushMapped_eq]

/-! ## Claim theorems -/

/-- C2: `handleFetch` dispatches each of the four category tags to exactly
its resolver, and any other tag yields the `Unknown ID` placeholder Doc
(whose body enumerates the four valid tags) without raising: the result is a
`doc` payload, never an `error`. -/
theorem fetch_dispatch :
    (∀ (ctx : RepoCtx) (env : FetchEnv) (id : String), kindOf id = "issue" →
      handleFetch ctx env id = docOrError (fetchIssue ctx env (valueOf id))) ∧
    (∀ (ctx : RepoCtx) (env : FetchEnv) (id : String), kindOf id = "pr" →
      handleFetch ctx env id = docOrError (fetchPr ctx env (valueOf id))) ∧
    (∀ (ctx : RepoCtx) (env : FetchEnv) (id : String), kindOf id = "commit" →
      handleFetch ctx env id = docOrError (fetchCommit ctx env (valueOf id))) ∧
    (∀ (ctx : RepoCtx) (env : FetchEnv) (id : String), kindOf id = "code" →
      handleFetch ctx env id = docOrError (fetchCodeBlob ctx env (valueOf id))) ∧
    (∀ (ctx : RepoCtx) (env : FetchEnv) (id : String),
      kindOf id ≠ "issue" → kindOf id ≠ "pr" → kindOf id ≠ "commit" → kindOf id ≠ "code" →
      handleFetch ctx env id = FetchOutcome.doc (unknownDoc id)) := by
  refine ⟨?_, ?_, ?_, ?_, ?_⟩
  · intro ctx env id h
    simp only [handleFetch, h]
    rfl
  · intro ctx env id h
    simp only [handleFetch, h]
    rfl
  · intro ctx env id h
    simp only [handleFetch, h]
    rfl
  · intro ctx env id h
    simp only [handleFetch, h]
    rfl
  · intro ctx env id h1 h2 h3 h4
    simp only [handleFetch]
    rw [if_neg h1, if_neg h2, if_neg h3, if_neg h4]
    rfl

/-- Witness for C2 at concrete identifiers of each shape. -/
theorem fetch_dispatch_witness :
    handleFetch ctx0 env0 "issue:1" = docOrError (fetchIssue ctx0 env0 (valueOf "issue:1")) ∧
    handleFetch ctx0 env0 "pr:2" = docOrError (fetchPr ctx0 env0 (valueOf "pr:2")) ∧
    handleFetch ctx0 env0 "commit:abc" = docOrError (fetchCommit ctx0 env0 (valueOf "commit:abc")) ∧
    handleFetch ctx0 env0 "code:s" = docOrError (fetchCodeBlob ctx0 env0 (valueOf "code:s")) ∧
    handleFetch ctx0 env0 "foo:123" = FetchOutcome.doc (unknownDoc "foo:123") :=
  ⟨fetch_dispatch.1 ctx0 env0 "issue:1" (by decide),
   fetch_dispatch.2.1 ctx0 env0 "pr:2" (by decide),
   fetch_dispatch.2.2.1 ctx0 env0 "commit:abc" (by decide),
   fetch_dispatch.2.2.2.1 ctx0 env0 "code:s" (by decide),
   fetch_dispatch.2.2.2.2 ctx0 env0 "foo:123" (by decide) (by decide) (by decide) (by decide)⟩

/-- C10 counterexample: the colon-free token `"code"` is itself a category
tag, so `handleFetch` dispatches it to the blob resolver (here yielding a
blob Doc for the literal value `undefined`) instead of returning the
Unknown-ID placeholder. -/
theorem fetch_no_colon_counterexample :
    (':' ∉ "code".toList) ∧
    handleFetch ctx0 env0 "code" =
      FetchOutcome.doc { id := "code:undefined", title := "blob undefined", text := "",
                         url := "https://api.github.com/repos/o/r/git/blobs/undefined" } ∧
    ("blob undefined" : String) ≠ "Unknown ID" := by
  refine ⟨by decide, by decide, by decide⟩

/-- C10 amended: a fetch identifier containing no colon is treated as the
whole category tag; when that token is not itself one of the four tag words,
the Unknown-ID placeholder is returned and no path-addressed retrieval is
attempted. -/
theorem fetch_no_colon_amended :
    ∀ (ctx : RepoCtx) (env : FetchEnv) (id : String),
    ':' ∉ id.toList →
    id ≠ "issue" → id ≠ "pr" → id ≠ "commit" → id ≠ "code" →
    handleFetch ctx env id = FetchOutcome.doc (unknownDoc id) := by
  intro ctx env id hc h1 h2 h3 h4
  have hk := kindOf_no_colon id hc
  simp only [handleFetch, hk]
  rw [if_neg h1, if_neg h2, if_neg h3, if_neg h4]
  rfl

/-- Witness for the amended C10 at the bare path token `README.md`. -/
theorem fetch_no_colon_amended_witness :
    handleFetch ctx0 env0 "README.md" = FetchOutcome.doc (unknownDoc "README.md") :=
  fetch_no_colon_amended ctx0 env0 "README.md" (by decide) (by decide) (by decide)
    (by decide) (by decide)

/-- Witness for C3 at a concrete one-item-per-category environment. -/
theorem search_output_category_order_witness :
    handleSearch ctx0 env3 "x" none = SearchOutcome.results
      [{ id := "issue:1", title := "Bug", url := "u1" },
       { id := "pr:2", title := "Fix", url := "u2" },
       { id := "commit:abc1234", title := "msg one", url := "u3" },
       { id := "code:sha9", title := "src/a.ts", url := "u4" }] ∧
    ([{ id := "issue:1", title := "Bug", url := "u1" },
      { id := "pr:2", title := "Fix", url := "u2" },
      { id := "commit:abc1234", title := "msg one", url := "u3" },
      { id := "code:sha9", title := "src/a.ts", url := "u4" }] : List SearchItem) =
      specIssueList env3 ++ specPrList env3
        ++ specCommitList ctx0 env3 "x" none ++ specCodeList ctx0 env3 "x" none :=
  ⟨by decide, search_output_category_order ctx0 env3 "x" none _ (by decide)⟩

/-- C4 counterexample: with query `needle`, the branch commit scan returns
the commit whose message is `alpha\nneedle` even though `needle` occurs
neither in the first message line (`alpha`) nor in the hash (`aaaa`) — the
code filters on the full message, not its first line. -/
theorem branch_commit_scan_counterexample :
    searchCommitsOnBranch ctx0 env3 "main" "needle" =
      Except.ok [{ id := "commit:aaaa", title := "alpha",
                   url := "https://github.com/o/r/commit/aaaa" }] ∧
    strIncludes (jsToLower (firstLine "alpha\nneedle")) "needle" = false ∧
    strIncludes "aaaa" "needle" = false ∧
    ("needle" : String) ≠ "" := by
  refine ⟨by decide, by decide, by decide, by decide⟩

/-- C4 amended: the branch commit scan draws from the window requested with
`per_page=100` (so at most 100 commits when the endpoint honours the
parameter); a commit is returned only if the trimmed query is empty or a
case-insensitive substring of the *full* commit message, or the lowercased
query occurs in the hash; at most `N` matches are collected; and with an
empty query the result is exactly the first `N` fetched commits (each
carrying a sha, per the wire contract), unfiltered. -/
theorem branch_commit_scan_amended :
    ∀ (ctx : RepoCtx) (env : SearchEnv) (branch query : String) (res : List SearchItem),
    0 < ctx.limit →
    searchCommitsOnBranch ctx env branch query = .ok res →
    res.length ≤ ctx.limit ∧
    (∀ item ∈ res, ∃ c ∈ commitWindow env branch, commitShaStr c ≠ "" ∧
      (jsToLower (jsTrim query) = ""
        ∨ strIncludes (jsToLower (commitMsgStr c)) (jsToLower (jsTrim query)) = true
        ∨ strIncludes (commitShaStr c) (jsToLower (jsTrim query)) = true) ∧
      item = commitScanItem ctx c) ∧
    (jsTrim query = "" → (∀ c ∈ commitWindow env branch, commitShaStr c ≠ "") →
      res = ((commitWindow env branch).map (commitScanItem ctx)).take ctx.limit) ∧
    ((∀ (b : String) (n : Nat), (commitWindowAt env b n).length ≤ n) →
      (commitWindow env branch).length ≤ 100) := by
  intro ctx env branch query res hpos hrun
  unfold searchCommitsOnBranch at hrun
  cases hg : ghGet (env.commitsList branch 100) with
  | error e => rw [hg] at hrun; simp at hrun
  | ok out =>
    rw [hg] at hrun
    simp only [Except.ok.injEq] at hrun
    have hwindow : commitWindow env branch = jsArrOf out := by
      rw [commitWindow, commitWindowAt, hg]
    refine ⟨?_, ?_, ?_, ?_⟩
    · rw [← hrun]
      exact commitScanLoop_len ctx _ _ [] (by simpa using hpos)
    · intro item hitem
      rw [← hrun] at hitem
      rcases commitScanLoop_mem ctx _ _ [] item hitem with h | ⟨c, hc, hp⟩
      · exact absurd h (List.not_mem_nil item)
      · exact ⟨c, by rw [hwindow]; exact hc, hp⟩
    · intro hq hsha
      rw [hwindow] at hsha ⊢
      rw [← hrun]
      have hq' : jsToLower (jsTrim query) = "" := by rw [hq]; rfl
      rw [hq']
      rw [commitScanLoop_empty_q ctx _ [] hsha (by simpa using hpos)]
      simp
    · intro hw
      exact hw branch 100

/-- Witness for the amended C4: an empty query on a two-commit window. -/
theorem branch_commit_scan_amended_witness :
    0 < ctx0.limit ∧
    searchCommitsOnBranch ctx0 env3 "main" "" =
      Except.ok [{ id := "commit:aaaa", title := "alpha",
                   url := "https://github.com/o/r/commit/aaaa" },
                 { id := "commit:bbbb", title := "beta",
                   url := "https://github.com/o/r/commit/bbbb" }] ∧
    ([{ id := "commit:aaaa", title := "alpha",
        url := "https://github.com/o/r/commit/aaaa" },
      { id := "commit:bbbb", title := "beta",
        url := "https://github.com/o/r/commit/bbbb" }] : List SearchItem).length
      ≤ ctx0.limit :=
  ⟨by decide, by decide,
   (branch_commit_scan_amended ctx0 env3 "main" "" _ (by decide) (by decide)).1⟩

/-- Post-condition of one code scan from an empty accumulator: bound,
soundness of the filter, and exactness for the empty query. -/
theorem codeScan_post (ctx : RepoCtx) (branch query : String)
    (entries : List (Option RawTreeEntry)) (res : List SearchItem)
    (hpos : 0 < ctx.limit)
    (hrun : codeScanLoop ctx branch (jsToLower (jsTrim query)) entries [] = res) :
    res.length ≤ ctx.limit ∧
    (∀ item ∈ res, ∃ e ∈ entries,
      (e.bind RawTreeEntry.type) = some "blob"
      ∧ jsTruthy (e.bind RawTreeEntry.path) = true
      ∧ (jsToLower (jsTrim query) = ""
          ∨ strIncludes (jsToLower (jsStr (e.bind RawTreeEntry.path)))
              (jsToLower (jsTrim query)) = true)
      ∧ mapCodeItemFromTree ctx e branch = some item
      ∧ item.title = jsStr (e.bind RawTreeEntry.path)) ∧
    (jsTrim query = "" →
      res = (entries.filterMap fun e => mapCodeItemFromTree ctx e branch).take ctx.limit) := by
  refine ⟨?_, ?_, ?_⟩
  · rw [← hrun]
    exact codeScanLoop_len ctx branch _ _ [] (by simpa using hpos)
  · intro item hitem
    rw [← hrun] at hitem
    rcases codeScanLoop_mem ctx branch _ _ [] item hitem with h | ⟨e, he, h1, h2, h3, h4⟩
    · exact absurd h (List.not_mem_nil item)
    · refine ⟨e, he, h1, h2, h3, h4, ?_⟩
      cases e with
      | none => simp [mapCodeItemFromTree] at h4
      | some ee =>
        rw [mapCodeItemFromTree] at h4
        by_cases hc : ee.type = some "blob" ∧ jsTruthy ee.sha = true
            ∧ jsTruthy ee.path = true
        · rw [if_pos hc] at h4
          cases h4
          rfl
        · rw [if_neg hc] at h4
          cases h4
  · intro hq
    rw [← hrun]
    have hq2 : jsToLower (jsTrim query) = "" := by rw [hq]; rfl
    rw [hq2]
    rw [codeScanLoop_empty_q ctx branch _ [] (by simpa using hpos)]
    simp

/-- C5 counterexample: with the non-empty query `" x"`, the branch code
scan returns the blob at path `src/x.ts` even though that path does not
contain `" x"` as a case-insensitive substring — the code (source line 211)
trims the query before matching, so the frozen claim's raw-query filter is
false of the program. -/
theorem branch_code_scan_counterexample :
    searchCodePathsOnBranch ctx0 env3 "main" " x" =
      Except.ok [{ id := "code:t1", title := "src/x.ts",
                   url := "https://github.com/o/r/blob/main/src/x.ts" }] ∧
    (" x" : String) ≠ "" ∧
    strIncludes (jsToLower "src/x.ts") (jsToLower " x") = false := by
  refine ⟨by decide, by decide, by decide⟩

/-- C5 amended: a successful explicit-branch code search returns at most
`N` results; every result is a blob tree entry whose path (the item title)
contains the *trimmed* query case-insensitively when the trimmed query is
non-empty; and with an empty trimmed query it is exactly the first `N`
mapped blob entries. -/
theorem branch_code_scan_bound_filter :
    ∀ (ctx : RepoCtx) (env : SearchEnv) (branch query : String) (res : List SearchItem),
    0 < ctx.limit →
    searchCodePathsOnBranch ctx env branch query = .ok res →
    res.length ≤ ctx.limit ∧
    (∀ item ∈ res, ∃ headSha, resolveBranchHeadSha env branch = .ok (some headSha) ∧
      ∃ e ∈ treeEntriesAt env headSha,
        (e.bind RawTreeEntry.type) = some "blob"
        ∧ jsTruthy (e.bind RawTreeEntry.path) = true
        ∧ (jsToLower (jsTrim query) = ""
            ∨ strIncludes (jsToLower (jsStr (e.bind RawTreeEntry.path)))
                (jsToLower (jsTrim query)) = true)
        ∧ mapCodeItemFromTree ctx e branch = some item
        ∧ item.title = jsStr (e.bind RawTreeEntry.path)) ∧
    (jsTrim query = "" → ∀ headSha, resolveBranchHeadSha env branch = .ok (some headSha) →
      res = ((treeEntriesAt env headSha).filterMap
        fun e => mapCodeItemFromTree ctx e branch).take ctx.limit) := by
  intro ctx env branch query res hpos hrun
  unfold searchCodePathsOnBranch at hrun
  cases hr : resolveBranchHeadSha env branch with
  | error e => rw [hr] at hrun; simp at hrun
  | ok headSha? =>
    rw [hr] at hrun
    cases headSha? with
    | none =>
      simp only [Except.ok.injEq] at hrun
      refine ⟨?_, ?_, ?_⟩
      · rw [← hrun]; exact Nat.le_of_lt (by simpa using hpos)
      · intro item hitem
        rw [← hrun] at hitem
        exact absurd hitem (List.not_mem_nil item)
      · intro _ headSha hhs
        simp at hhs
    | some headSha =>
      dsimp only [] at hrun
      cases ht : ghGet (env.tree headSha) with
      | error e => rw [ht] at hrun; simp at hrun
      | ok tout =>
        rw [ht] at hrun
        simp only [Except.ok.injEq] at hrun
        have hrun2 : codeScanLoop ctx branch (jsToLower (jsTrim query))
            (treeEntriesAt env headSha) [] = res := by
          rw [treeEntriesAt, ht]
          exact hrun
        have hpost := codeScan_post ctx branch query (treeEntriesAt env headSha) res hpos hrun2
        refine ⟨hpost.1, ?_, ?_⟩
        · intro item hitem
          exact ⟨headSha, rfl, hpost.2.1 item hitem⟩
        · intro hq headSha2 hhs2
          simp only [Except.ok.injEq, Option.some.injEq] at hhs2
          rw [← hhs2]
          exact hpost.2.2 hq

/-- Witness for the amended C5: query `src` on a three-entry tree keeps the
single blob whose path contains it. -/
theorem branch_code_scan_bound_filter_witness :
    0 < ctx0.limit ∧
    searchCodePathsOnBranch ctx0 env3 "main" "src" =
      Except.ok [{ id := "code:t1", title := "src/x.ts",
                   url := "https://github.com/o/r/blob/main/src/x.ts" }] ∧
    ([{ id := "code:t1", title := "src/x.ts",
        url := "https://github.com/o/r/blob/main/src/x.ts" }] : List SearchItem).length
      ≤ ctx0.limit :=
  ⟨by decide, by decide,
   (branch_code_scan_bound_filter ctx0 env3 "main" "src" _ (by decide) (by decide)).1⟩

/-- Lemma: `find?` over an append returns an early hit of the left part. -/
theorem find?_append_some {β : Type} (p : (String × β) → Bool) :
    ∀ (l₁ l₂ : List (String × β)) (x : String × β),
    l₁.find? p = some x → (l₁ ++ l₂).find? p = some x := by
  intro l₁
  induction l₁ with
  | nil => intro l₂ x h; simp [List.find?] at h
  | cons a t ih =>
    intro l₂ x h
    cases hp : p a with
    | true =>
      rw [List.find?_cons_of_pos _ hp] at h
      rw [List.cons_append, List.find?_cons_of_pos _ hp]
      exact h
    | false =>
      rw [List.find?_cons_of_neg _ (by simp [hp])] at h
      rw [List.cons_append, List.find?_cons_of_neg _ (by simp [hp])]
      exact ih l₂ x h

/-- C1: every code result of an indexing-variant search has an index entry
written under its identifier whose canonical URL and path equal the
result's; and any later fetch of that identifier in a state where the entry
is still the one looked up (no intervening overwrite) returns exactly the
blob content under that stored path and canonical URL. -/
theorem idx_search_fetch_roundtrip :
    ∀ (props : IdxProps) (query : String) (resp : GhResp IdxItemsBody)
      (st st' : IState) (res : List IdxResult) (r : IdxResult),
    idxSearchTool props query resp st = .ok (st', res) →
    (res.map IdxResult.id).Nodup →
    r ∈ res → r.id ≠ "" →
    ∃ e : IdxEntry, idxLookup st' r.id = some e ∧ e.html_url = r.url ∧ e.path = r.path
      ∧ e.sha = some r.id ∧
      ∀ (stF : IState) (env : IdxFetchEnv) (content : String),
        idxLookup stF r.id = some e →
        env.blobRaw r.id = .ok content →
        idxFetchTool props env stF [r.id] =
          .ok [{ path := e.path, source_url := e.html_url, content := content }] := by
  intro props query resp st st' res r hrun hnd hr hne
  unfold idxSearchTool at hrun
  cases hj : ghJson (codeSearchUrl props query) resp with
  | error e => rw [hj] at hrun; simp at hrun
  | ok data =>
    rw [hj] at hrun
    dsimp only [] at hrun
    rw [idxSearchGo_eq] at hrun
    simp only [Except.ok.injEq, Prod.mk.injEq, List.nil_append] at hrun
    obtain ⟨hst, hres⟩ := hrun
    rw [← hres] at hr hnd
    obtain ⟨it, hit, hmk⟩ := List.mem_map.mp hr
    have hid : r.id = it.sha := by rw [← hmk]; rfl
    have hurl : r.url = it.html_url := by rw [← hmk]; rfl
    have hpath : r.path = it.path := by rw [← hmk]; rfl
    refine ⟨idxEntryOf props it, ?_, by rw [hurl]; rfl, by rw [hpath]; rfl,
      by rw [hid]; rfl, ?_⟩
    · rw [← hst]
      unfold idxLookup
      have hkeys : ((((data.items.getD []).map
          fun it => (it.sha, idxEntryOf props it)).reverse).map Prod.fst).Nodup := by
        rw [List.map_reverse, List.nodup_reverse, List.map_map]
        have : (Prod.fst ∘ fun it => (it.sha, idxEntryOf props it))
            = fun it : RawCodeIdx => it.sha := rfl
        rw [this]
        have hids : ((data.items.getD []).map (mkIdxResult props)).map IdxResult.id
            = (data.items.getD []).map fun it : RawCodeIdx => it.sha := by
          rw [List.map_map]; rfl
        rw [hids] at hnd
        exact hnd
      have hmem : (it.sha, idxEntryOf props it) ∈
          (((data.items.getD []).map fun it => (it.sha, idxEntryOf props it)).reverse) := by
        rw [List.mem_reverse]
        exact List.mem_map.mpr ⟨it, hit, rfl⟩
      have hfind := find?_assoc_nodup _ it.sha (idxEntryOf props it) hkeys hmem
      rw [hid]
      rw [find?_append_some _ _ _ _ hfind]
      rfl
    · intro stF env content hlook hblob
      unfold idxFetchTool idxFetchGo
      rw [hlook]
      dsimp only []
      have htru : jsTruthy (idxEntryOf props it).sha = true := by
        simp only [idxEntryOf, jsTruthy]
        rw [← hid]
        simp [hne]
      rw [if_pos htru]
      have hjs : jsStr (idxEntryOf props it).sha = r.id := by
        rw [hid]; rfl
      rw [hjs, hblob]
      rfl

/-- Witness for C1: one indexed code item, redeemed from the post-search
state. -/
theorem idx_search_fetch_roundtrip_witness :
    idxSearchTool props0 "q" respIdxW initialIState = .ok (stW, [resW0]) ∧
    (∃ e : IdxEntry, idxLookup stW resW0.id = some e ∧ e.html_url = resW0.url
      ∧ e.path = resW0.path ∧ e.sha = some resW0.id ∧
      ∀ (stF : IState) (env : IdxFetchEnv) (content : String),
        idxLookup stF resW0.id = some e →
        env.blobRaw resW0.id = .ok content →
        idxFetchTool props0 env stF [resW0.id] =
          .ok [{ path := e.path, source_url := e.html_url, content := content }]) :=
  ⟨by decide,
   idx_search_fetch_roundtrip props0 "q" respIdxW initialIState stW [resW0] resW0
     (by decide) (by decide) (by decide) (by decide)⟩

/-- C8: the index of an indexing-variant session starts empty, and one
invocation step (search or fetch) never removes a key — the key set after
the step contains every key present before it. -/
theorem index_lifecycle :
    initialIState.index = [] ∧
    ∀ (props : IdxProps) (st : IState) (op : SessionOp) (k : String),
      k ∈ idxKeys st → k ∈ idxKeys (stepState props st op) := by
  refine ⟨rfl, ?_⟩
  intro props st op k hk
  cases op with
  | searchOp query resp =>
    simp only [stepState]
    cases hs : idxSearchTool props query resp st with
    | error e => exact hk
    | ok pr =>
      obtain ⟨st2, res2⟩ := pr
      dsimp only []
      unfold idxSearchTool at hs
      cases hj : ghJson (codeSearchUrl props query) resp with
      | error e2 => rw [hj] at hs; simp at hs
      | ok data =>
        rw [hj] at hs
        dsimp only [] at hs
        rw [idxSearchGo_eq] at hs
        simp only [Except.ok.injEq, Prod.mk.injEq] at hs
        obtain ⟨hst2, _⟩ := hs
        rw [← hst2]
        simp only [idxKeys, List.map_append, List.mem_append]
        right
        exact hk
  | fetchOp env ids => exact hk

/-- Witness for C8: a pre-populated key survives a search step. -/
theorem index_lifecycle_witness :
    "a" ∈ idxKeys stK ∧
    "a" ∈ idxKeys (stepState props0 stK (SessionOp.searchOp "q" respIdxW)) :=
  ⟨by decide,
   index_lifecycle.2 props0 stK (SessionOp.searchOp "q" respIdxW) "a" (by decide)⟩

/-- C6 counterexample: the indexing variant's `search` tool has no
try/catch, so an upstream 403 makes the whole invocation an uncaught throw
(`Except.error`) that crosses the handler boundary instead of a returned
`{ error }` payload. -/
theorem op_boundary_counterexample :
    idxSearchTool props0 "q" (respFail IdxItemsBody "boom") initialIState =
      Except.error
        "GitHub API 403 Forbidden for https://api.github.com/search/code?q=q%20repo%3Ao%2Fr%20in%3Afile\nboom" := by
  decide

/-- C6 amended: in the non-indexing variant, `handleSearch`/`handleFetch`
always return a payload — results/doc on success, and exactly the internally
raised error message as an `{ error }` payload on failure; no exception
escapes those handlers. -/
theorem op_boundary_amended :
    (∀ (ctx : RepoCtx) (env : SearchEnv) (q : String) (b : Option String),
      (∃ rs, handleSearch ctx env q b = SearchOutcome.results rs) ∨
      (∃ e, handleSearch ctx env q b = SearchOutcome.error e ∧
        searchBody ctx env q b = Except.error e)) ∧
    (∀ (ctx : RepoCtx) (env : FetchEnv) (id : String),
      (∃ d, handleFetch ctx env id = FetchOutcome.doc d) ∨
      (∃ e, handleFetch ctx env id = FetchOutcome.error e)) ∧
    (∀ (ctx : RepoCtx) (env : SearchEnv) (q : String) (b : Option String) (e : String),
      searchBody ctx env q b = Except.error e →
      handleSearch ctx env q b = SearchOutcome.error e) := by
  refine ⟨?_, ?_, ?_⟩
  · intro ctx env q b
    cases hb : searchBody ctx env q b with
    | ok rs =>
      left
      exact ⟨rs, by unfold handleSearch; rw [hb]; rfl⟩
    | error e =>
      right
      exact ⟨e, by unfold handleSearch; rw [hb]; rfl, rfl⟩
  · intro ctx env id
    cases hX : (if kindOf id = "issue" then fetchIssue ctx env (valueOf id)
      else if kindOf id = "pr" then fetchPr ctx env (valueOf id)
      else if kindOf id = "commit" then fetchCommit ctx env (valueOf id)
      else if kindOf id = "code" then fetchCodeBlob ctx env (valueOf id)
      else Except.ok (unknownDoc id)) with
    | ok d =>
      left
      exact ⟨d, by simp only [handleFetch]; rw [hX]; rfl⟩
    | error e =>
      right
      exact ⟨e, by simp only [handleFetch]; rw [hX]; rfl⟩
  · intro ctx env q b e h
    unfold handleSearch
    rw [h]
    rfl

/-- Witness for the amended C6: a failing issues query surfaces as an
`{ error }` payload of the same message. -/
theorem op_boundary_amended_witness :
    handleSearch ctx0 envFailS "x" none = SearchOutcome.error "GitHub 403 Forbidden: oops" :=
  op_boundary_amended.2.2 ctx0 envFailS "x" none _ (by decide)

/-- C7 counterexample: in the bare-`atob` variant (`src/unnamed/part_002`),
a base64 payload that fails to decode does not yield a Doc with empty text —
the decode throw is caught by the handler's catch and the whole fetch
returns an `{ error }` payload instead. -/
theorem decode_failure_counterexample :
    handleFetchV2 ctx0 envBadB64 "code:x" =
      FetchOutcome.error
        "InvalidCharacterError: The string to be decoded is not correctly encoded." ∧
    atobM "%" = none := by
  refine ⟨by decide, by decide⟩

/-- C7 amended: in the `safeAtob` variant (`src/src/index.ts`), a code-blob
fetch whose payload claims base64 but whose content fails to decode returns
a Doc with empty text and does not propagate the decode exception. -/
theorem decode_failure_amended :
    ∀ (ctx : RepoCtx) (env : FetchEnv) (value : String) (j : GhOut BlobBody) (c : String),
    ghGet (env.blob value) = .ok j →
    ghField j BlobBody.encoding = some "base64" →
    ghField j BlobBody.content = some c →
    c ≠ "" →
    atobM (String.mk (c.toList.filter fun ch => ch ≠ Char.ofNat 10)) = none →
    fetchCodeBlob ctx env value =
      .ok { id := "code:" ++ value, title := "blob " ++ value, text := "",
            url := ghUrl ("/repos/" ++ ctx.owner ++ "/" ++ ctx.repo
              ++ "/git/blobs/" ++ value) } := by
  intro ctx env value j c hj henc hcont hne hdec
  unfold fetchCodeBlob
  rw [hj]
  dsimp only []
  have hcond : ghField j BlobBody.encoding = some "base64"
      ∧ jsTruthy (ghField j BlobBody.content) = true :=
    ⟨henc, by rw [hcont]; simp [jsTruthy, hne]⟩
  rw [if_pos hcond, hcont]
  simp only [safeAtob, jsStr, Option.getD_some]
  rw [hdec]
  rfl

/-- Witness for the amended C7 at the undecodable content `%`. -/
theorem decode_failure_amended_witness :
    fetchCodeBlob ctx0 envBadB64 "x" =
      Except.ok { id := "code:x", title := "blob x", text := "",
                  url := "https://api.github.com/repos/o/r/git/blobs/x" } :=
  decode_failure_amended ctx0 envBadB64 "x"
    (GhOut.data { encoding := some "base64", content := some "%" }) "%"
    (by decide) (by decide) (by decide) (by decide) (by decide)

/-- JS `o || d` either falls back to `d` or returns the present value. -/
theorem jsOrElse_cases (o : Option String) (d : String) :
    jsOrElse o d = d ∨ ∃ s, o = some s ∧ jsOrElse o d = s := by
  cases o with
  | none => left; rfl
  | some s =>
    by_cases hs : s = ""
    · left; simp [jsOrElse, hs]
    · right; exact ⟨s, rfl, by simp [jsOrElse, hs]⟩

/-- C9 amended: every error `ghGet` raises carries the status code followed
by either a body excerpt of at most 300 characters or, for a parsed JSON
error body, its `message`/`error` field verbatim (the indexing variant's
`ghJson` instead embeds the full body — see the counterexample). -/
theorem error_excerpt_amended :
    ∀ (α : Type) (r : GhResp α) (e : String),
    ghGet r = Except.error e →
    ∃ m, e = "GitHub " ++ toString r.status ++ " " ++ r.statusText ++ ": " ++ m ∧
      ((m = takeChars 300 (jsTrim r.body) ∧ m.length ≤ 300) ∨
       (∃ s, (r.message = some s ∨ r.errField = some s) ∧ m = s)) := by
  intro α r e h
  unfold ghGet at h
  dsimp only [] at h
  by_cases hok : ¬ ghOk r = true
  · rw [if_pos hok] at h
    by_cases hct : ¬ r.ctJson = true
    · rw [if_pos hct] at h
      simp only [Except.error.injEq] at h
      exact ⟨takeChars 300 (jsTrim r.body), h.symm,
        Or.inl ⟨rfl, takeChars_length_le _ _⟩⟩
    · rw [if_neg hct] at h
      cases hp : r.parsed with
      | none =>
        rw [hp] at h
        simp only [Except.error.injEq] at h
        exact ⟨takeChars 300 (jsTrim r.body), h.symm,
          Or.inl ⟨rfl, takeChars_length_le _ _⟩⟩
      | some d =>
        rw [hp] at h
        dsimp only [] at h
        simp only [Except.error.injEq] at h
        by_cases htru : r.parsedTruthy = true
        · rw [if_pos htru] at h
          rcases jsOrElse_cases r.message (jsOrElse r.errField (takeChars 300 (jsTrim r.body)))
            with h1 | ⟨s, hs, h1⟩
          · rcases jsOrElse_cases r.errField (takeChars 300 (jsTrim r.body))
              with h2 | ⟨s2, hs2, h2⟩
            · refine ⟨takeChars 300 (jsTrim r.body), ?_, Or.inl ⟨rfl, takeChars_length_le _ _⟩⟩
              rw [← h, h1, h2]
            · refine ⟨s2, ?_, Or.inr ⟨s2, Or.inr hs2, rfl⟩⟩
              rw [← h, h1, h2]
          · refine ⟨s, ?_, Or.inr ⟨s, Or.inl hs, rfl⟩⟩
            rw [← h, h1]
        · rw [if_neg htru] at h
          exact ⟨takeChars 300 (jsTrim r.body), h.symm,
            Or.inl ⟨rfl, takeChars_length_le _ _⟩⟩
  · rw [if_neg hok] at h
    by_cases hct : ¬ r.ctJson = true
    · rw [if_pos hct] at h
      cases hp : r.parsed with
      | some d => rw [hp] at h; simp at h
      | none => rw [hp] at h; simp at h
    · rw [if_neg hct] at h
      cases hp : r.parsed with
      | none =>
        rw [hp] at h
        simp only [Except.error.injEq] at h
        exact ⟨takeChars 300 (jsTrim r.body), h.symm,
          Or.inl ⟨rfl, takeChars_length_le _ _⟩⟩
      | some d => rw [hp] at h; simp at h

/-- Witness for the amended C9 at a failing non-JSON response. -/
theorem error_excerpt_amended_witness :
    ∃ m, "GitHub 403 Forbidden: oops"
        = "GitHub " ++ toString (respFail Unit "oops").status ++ " "
          ++ (respFail Unit "oops").statusText ++ ": " ++ m ∧
      ((m = takeChars 300 (jsTrim (respFail Unit "oops").body) ∧ m.length ≤ 300) ∨
       (∃ s, ((respFail Unit "oops").message = some s
          ∨ (respFail Unit "oops").errField = some s) ∧ m = s)) :=
  error_excerpt_amended Unit (respFail Unit "oops") "GitHub 403 Forbidden: oops" (by decide)

set_option maxRecDepth 4000 in
/-- C9 counterexample: the indexing variant's `ghJson` embeds the entire
301-character body in the thrown error — more than any 300-character
excerpt allows. -/
theorem error_excerpt_counterexample :
    ghJson "u" ({ status := 403, statusText := "Forbidden", ctJson := true,
                  body := longBody, parsed := none, parsedTruthy := false,
                  message := none, errField := none } : GhResp Unit) =
      Except.error ("GitHub API 403 Forbidden for u" ++ "\n" ++ longBody) ∧
    longBody.length = 301 ∧ 300 < longBody.length := by
  refine ⟨by decide, by decide, by decide⟩
